import Mathlib

/-!
Verification of the feed-merge core of scripts/generate_feed.py
(repository technewsdaily-rss).

The development shallowly embeds the pieces of `merge_episode_into_feed`
that the claims are about:

* an `Elem` type mirroring `xml.etree.ElementTree` elements (tag,
  attributes, text, ordered children);
* candidate extraction (`findall(".//item")` plus the bare-root special
  case);
* the duplicate-detection loop over GUID/link sets;
* the channel surgery that rebuilds the item sequence;
* the text-level regex repair for unescaped ampersands in link text;
* the minidom-level serialization passes (namespace-prefix fix-up and
  CDATA literalization of item links).

Python sets are modelled as lists used only through membership; machine
behaviour that the script delegates to the standard-library XML parser is
abstracted as a function parameter `parseFn : String -> Option Elem`.
-/

set_option autoImplicit false

namespace FeedGen

/-- Site constants from the top of scripts/generate_feed.py. -/
def SITE_TITLE : String := "TechNewsDaily"

def SITE_LINK : String := "/"

def SITE_DESC : String := "Tech news and summaries — generated RSS feed"

/-- The hard-coded namespace table from `merge_episode_into_feed`
(insertion order of the Python dict). -/
def NAMESPACES : List (String × String) :=
  [("itunes", "http://www.itunes.com/dtds/podcast-1.0.dtd"),
   ("content", "http://purl.org/rss/1.0/modules/content/"),
   ("atom", "http://www.w3.org/2005/Atom"),
   ("dc", "http://purl.org/dc/elements/1.1/"),
   ("media", "http://search.yahoo.com/mrss/")]

/-- An ElementTree element: tag, attributes, text, ordered children.
Tail text is irrelevant to the merge logic and omitted. -/
inductive Elem where
  | mk (tag : String) (attrs : List (String × String)) (text : Option String)
      (children : List Elem)

def Elem.tag : Elem → String
  | .mk t _ _ _ => t

def Elem.attrs : Elem → List (String × String)
  | .mk _ a _ _ => a

def Elem.text : Elem → Option String
  | .mk _ _ x _ => x

def Elem.children : Elem → List Elem
  | .mk _ _ _ cs => cs

/-- `elem.find(tag)`: first direct child with the given tag. -/
def findChild (t : String) (e : Elem) : Option Elem :=
  e.children.find? (fun c => c.tag == t)

/-- The Python truthiness test `el is not None and el.text`: the child
exists and its text is present and non-empty. -/
def childText (t : String) (e : Elem) : Option String :=
  match findChild t e with
  | some c =>
    match c.text with
    | some s => if s = "" then none else some s
    | none => none
  | none => none

def guidText (e : Elem) : Option String := childText "guid" e

def linkText (e : Elem) : Option String := childText "link" e

def isItem (e : Elem) : Bool := e.tag == "item"

mutual

/-- `episode_root.findall(".//item")`: every strict descendant tagged
`item`, in document order (the root itself is never returned). -/
def descItems : Elem → List Elem
  | .mk _ _ _ cs => descItemsL cs

def descItemsL : List Elem → List Elem
  | [] => []
  | c :: cs => (if c.tag = "item" then [c] else []) ++ descItems c ++ descItemsL cs

end

/-- Candidate items of an episode document: the `findall(".//item")`
result, with the root prepended when the root element is itself an
`item` (lines 113-119 of generate_feed.py). -/
def candidateItems (root : Elem) : List Elem :=
  let ns := descItems root
  if root.tag = "item" then root :: ns else ns

/-- `existing_guids`: text of each existing item's `guid` child when
present and non-empty (lines 123-129). -/
def existingGuids (items : List Elem) : List String :=
  items.filterMap guidText

/-- `existing_links`: text of each existing item's `link` child when
present and non-empty (lines 124-131). -/
def existingLinks (items : List Elem) : List String :=
  items.filterMap linkText

/-- Add an optional key to a set (modelled as a list used through
membership only). -/
def addIf : Option String → List String → List String
  | some s, l => s :: l
  | none, l => l

/-- The duplicate test of lines 136-145: prefer the GUID; only when the
GUID is absent or empty fall back to the link; items with neither are
never duplicates. -/
def isDup (gs ls : List String) (it : Elem) : Bool :=
  match guidText it with
  | some g => gs.contains g
  | none =>
    match linkText it with
    | some l => ls.contains l
    | none => false

/-- The `items_to_keep` loop of lines 134-153: drop duplicates, and on
keeping an item add both its guid text and its link text (each when
non-empty) to the corresponding set. -/
def dedupLoop (gs ls : List String) : List Elem → List Elem
  | [] => []
  | it :: rest =>
    if isDup gs ls it then dedupLoop gs ls rest
    else it :: dedupLoop (addIf (guidText it) gs) (addIf (linkText it) ls) rest

/-- The pair of duplicate-detection sets after the loop has processed a
list of candidates. -/
def loopState (gs ls : List String) : List Elem → List String × List String
  | [] => (gs, ls)
  | it :: rest =>
    if isDup gs ls it then loopState gs ls rest
    else loopState (addIf (guidText it) gs) (addIf (linkText it) ls) rest

/-- Candidates of a merge that survive duplicate detection against the
existing items. -/
def survivors (ex cands : List Elem) : List Elem :=
  dedupLoop (existingGuids ex) (existingLinks ex) cands

/-- Replace the text of an element (`build_date.text = ...`). -/
def setText (now : String) : Elem → Elem
  | .mk t a _ cs => .mk t a (some now) cs

/-- Lines 83-86: set the text of the first `lastBuildDate` child, or
append a fresh one when none exists. -/
def setBuildDate (now : String) : List Elem → List Elem
  | [] => [.mk "lastBuildDate" [] (some now) []]
  | c :: cs =>
    if c.tag = "lastBuildDate" then setText now c :: cs
    else c :: setBuildDate now cs

/-- Lines 112-165 at the channel level: update the build date, extract
existing items and candidates, run duplicate detection, then rebuild the
channel's children as non-items ++ kept candidates ++ existing items. -/
def mergeChannel (now : String) (ch epRoot : Elem) : Elem :=
  let cs := setBuildDate now ch.children
  let existing := cs.filter isItem
  let kept := dedupLoop (existingGuids existing) (existingLinks existing) (candidateItems epRoot)
  .mk ch.tag ch.attrs ch.text (cs.filter (fun c => !isItem c) ++ kept ++ existing)

/-- The synthesized channel of lines 66-70 for a missing feed file. -/
def freshChannel : Elem :=
  .mk "channel" [] none
    [.mk "title" [] (some SITE_TITLE) [],
     .mk "link" [] (some SITE_LINK) [],
     .mk "description" [] (some SITE_DESC) [],
     .mk "language" [] (some "en-us") []]

/-- The synthesized root of line 65: `ET.Element("rss", version="2.0",
attrib=NAMESPACES)` merges the namespace dict with the extra keyword,
the extra coming last. -/
def freshRss : Elem :=
  .mk "rss" (NAMESPACES ++ [("version", "2.0")]) none [freshChannel]

/-- Replace the first child satisfying `p`; `none` when there is none
(the script would crash on a feed without a `channel`). -/
def replaceFirst (p : Elem → Bool) (f : Elem → Elem) : List Elem → Option (List Elem)
  | [] => none
  | c :: cs =>
    if p c then some (f c :: cs)
    else (replaceFirst p f cs).map (c :: ·)

def remake : Elem → List Elem → Elem
  | .mk t a x _, cs => .mk t a x cs

/-- The structural merge: load or synthesize the feed document, then
rewrite its (first) channel. -/
def mergeFeed (now : String) (feed : Option Elem) (epRoot : Elem) : Option Elem :=
  let rss := feed.getD freshRss
  match replaceFirst (fun c => c.tag == "channel") (fun ch => mergeChannel now ch epRoot) rss.children with
  | some cs => some (remake rss cs)
  | none => none

/-- Direct `item` children of an element (`channel.findall("item")`). -/
def itemsOf (e : Elem) : List Elem :=
  e.children.filter isItem

/-! ### The text-level repair (lines 95-106)

`re.sub(r"(<link>)(.*?&.*?)(</link>)", _wrap_link_cdata, text, flags=DOTALL)`
is embedded as a left-to-right scan over the character list.  At each
literal `<link>` the lazy groups match the shortest inner text that
contains an ampersand: the text up to the first `&` after the open tag,
then up to the first `</link>` after that `&`.  When no such match
starts at an occurrence of `<link>`, the scan moves on; matched spans
are replaced and scanning resumes after the close tag, exactly re.sub's
leftmost non-overlapping semantics. -/

def linkOpenL : List Char := "<link>".data

def linkCloseL : List Char := "</link>".data

def cdataMarkL : List Char := "<![CDATA[".data

def cdataEndL : List Char := "]]>".data

def ampC : Char := '&'

/-- Does `pat` begin `s`? -/
def leadsWith : List Char → List Char → Bool
  | [], _ => true
  | _ :: _, [] => false
  | p :: ps, c :: cs => p == c && leadsWith ps cs

/-- Does `pat` occur anywhere in `s`? -/
def hasSub (pat : List Char) : List Char → Bool
  | [] => leadsWith pat []
  | c :: cs => leadsWith pat (c :: cs) || hasSub pat cs

/-- Split `s` at the leftmost occurrence of `pat`: the part before the
occurrence and the part after it. -/
def splitAtSub (pat : List Char) : List Char → Option (List Char × List Char)
  | [] => if leadsWith pat [] then some ([], []) else none
  | c :: cs =>
    if leadsWith pat (c :: cs) then some ([], List.drop pat.length (c :: cs))
    else
      match splitAtSub pat cs with
      | some (b, a) => some (c :: b, a)
      | none => none

/-- Lazy matching of `(.*?&.*?)(</link>)` against the text following an
open tag: the shortest group containing `&` means taking the first `&`,
then the first `</link>` after it.  Returns the inner group and the text
after the close tag. -/
def matchLink (t : List Char) : Option (List Char × List Char) :=
  match splitAtSub [ampC] t with
  | none => none
  | some (b1, a1) =>
    match splitAtSub linkCloseL a1 with
    | none => none
    | some (b2, rest) => some (b1 ++ ampC :: b2, rest)

/-- `_wrap_link_cdata`: wrap the inner group in a CDATA section unless
it already contains a CDATA marker. -/
def wrapInner (inner : List Char) : List Char :=
  if hasSub cdataMarkL inner then inner else cdataMarkL ++ inner ++ cdataEndL

/-- The substitution scan.  Fuel is structural only; every step consumes
at least one character, so `length + 1` fuel always suffices (proved
below as `repairFuel_irrel`). -/
def repairFuel : Nat → List Char → List Char
  | 0, s => s
  | _ + 1, [] => []
  | f + 1, c :: cs =>
    if leadsWith linkOpenL (c :: cs) then
      match matchLink (List.drop 6 (c :: cs)) with
      | some (inner, rest) => linkOpenL ++ wrapInner inner ++ linkCloseL ++ repairFuel f rest
      | none => c :: repairFuel f cs
    else c :: repairFuel f cs

def repairText (s : List Char) : List Char :=
  repairFuel (s.length + 1) s

/-- The whole-text repair applied after an episode parse failure. -/
def wrapLinksCdata (s : String) : String :=
  String.mk (repairText s.data)

/-! ### Episode loading and the full pipeline (lines 88-110)

XML parsing itself is standard-library behaviour; it enters the model as
an abstract `parseFn`.  The script tries a plain parse, and on failure
re-reads the text, applies `wrapLinksCdata` once and parses the result;
a second failure propagates. -/

def parseEpisode (parseFn : String → Option Elem) (txt : String) : Option Elem :=
  match parseFn txt with
  | some root => some root
  | none => parseFn (wrapLinksCdata txt)

/-! ### The minidom serialization passes (lines 167-213)

After the structural merge the tree is re-rendered; `DNode` mirrors the
minidom view of it: element nodes carry the literal tag name, a mutable
serialization prefix, attributes and children; text and CDATA nodes
carry their data. -/

inductive DNode where
  | element (tagName : String) (pfx : String) (attrs : List (String × String))
      (children : List DNode)
  | text (data : String)
  | cdata (data : String)

/-- The part of a tag name before the first colon. -/
def beforeColon (tn : String) : String :=
  String.mk (tn.data.takeWhile (fun c => c ≠ ':'))

def strHasColon (tn : String) : Bool :=
  tn.data.contains ':'

mutual

/-- `fix_namespace_prefixes` (lines 171-178): for every element whose
tag name contains a colon, force the serialization prefix to the part
of the tag name before the colon; recurse into all children. -/
def fixNsNode : DNode → DNode
  | .element tn px ats cs =>
    .element tn
      (if strHasColon tn then (if px ≠ beforeColon tn then beforeColon tn else px) else px)
      ats (fixNsList cs)
  | n => n

def fixNsList : List DNode → List DNode
  | [] => []
  | c :: cs => fixNsNode c :: fixNsList cs

end

/-- Concatenated data of the text and CDATA children (the collection
loop of lines 189-195 and 200-204). -/
def textContentD : List DNode → String
  | [] => ""
  | .text s :: cs => s ++ textContentD cs
  | .cdata s :: cs => s ++ textContentD cs
  | _ :: cs => textContentD cs

/-- One pass of the link rewrite: remove every child, then append a
single CDATA section holding the collected text. -/
def linkPass (cs : List DNode) : List DNode :=
  [.cdata (textContentD cs)]

/-- The loop body of lines 189-208 runs the collect-and-replace pass
twice in a row on each link under an item. -/
def fixLinkChildren (cs : List DNode) : List DNode :=
  linkPass (linkPass cs)

mutual

/-- The CDATA loop of lines 184-208, expressed as a recursive walk: a
`link` element whose parent is an `item` gets its children replaced via
`fixLinkChildren`; every other element is recursed into with itself as
the new parent tag. -/
def cdataFixChild (pt : String) : DNode → DNode
  | .element tn px ats cs =>
    if tn = "link" ∧ pt = "item" then .element tn px ats (fixLinkChildren cs)
    else .element tn px ats (cdataFixList tn cs)
  | n => n

def cdataFixList (pt : String) : List DNode → List DNode
  | [] => []
  | c :: cs => cdataFixChild pt c :: cdataFixList pt cs

end

/-- Entry point of the CDATA pass: the document element's parent is the
document node, whose `nodeName` is `#document`. -/
def cdataFixRoot (n : DNode) : DNode :=
  cdataFixChild "#document" n

/-- minidom text escaping used by `writexml` for text nodes. -/
def escChar (c : Char) : List Char :=
  if c = '&' then "&amp;".data
  else if c = '<' then "&lt;".data
  else if c = '>' then "&gt;".data
  else [c]

def escapeText (s : String) : String :=
  String.mk (s.data.foldr (fun c acc => escChar c ++ acc) [])

def escAttrChar (c : Char) : List Char :=
  if c = '"' then "&quot;".data else escChar c

def escapeAttr (s : String) : String :=
  String.mk (s.data.foldr (fun c acc => escAttrChar c ++ acc) [])

def attrsText : List (String × String) → String
  | [] => ""
  | (k, v) :: kvs => " " ++ k ++ "=\"" ++ escapeAttr v ++ "\"" ++ attrsText kvs

mutual

/-- Serialization of a node: elements are written with their literal tag
name, text nodes entity-escaped, CDATA sections written verbatim. -/
def serializeNode : DNode → String
  | .element tn _ ats cs => "<" ++ tn ++ attrsText ats ++ ">" ++ serializeList cs ++ "</" ++ tn ++ ">"
  | .text s => escapeText s
  | .cdata s => "<![CDATA[" ++ s ++ "]]>"

def serializeList : List DNode → String
  | [] => ""
  | c :: cs => serializeNode c ++ serializeList cs

end

/-- Lines 76-79: collect every `xmlns:*` attribute of the root into the
prefix registration table, keyed by `key.split(':')[1]`. -/
def splitCh (sep : Char) : List Char → List (List Char)
  | [] => [[]]
  | x :: xs =>
    match splitCh sep xs with
    | [] => [[x]]
    | y :: ys => if x = sep then [] :: y :: ys else (x :: y) :: ys

/-- Python `key.split(':')[1]` (empty when there is no colon). -/
def afterColonPart (k : String) : String :=
  match splitCh ':' k.data with
  | _ :: p :: _ => String.mk p
  | _ => ""

def registeredNamespaces (attrs : List (String × String)) : List (String × String) :=
  attrs.filterMap (fun kv =>
    if leadsWith "xmlns:".data kv.1.data then some (afterColonPart kv.1, kv.2) else none)

def lbraceC : Char := '\x7b'

def rbraceC : Char := '\x7d'

/-- The namespace-aware parse of lines 73-74 stores a prefixed tag
under its universal name: the URI in curly braces followed by the
local name, with the `xmlns:*` declarations consumed (they never reach
`rss.attrib`).  This extracts the URI of such a tag. -/
def qualTagUri (tag : String) : Option String :=
  match tag.data with
  | c :: rest =>
    if c = lbraceC then some (String.mk (rest.takeWhile (fun d => d ≠ rbraceC))) else none
  | [] => none

/-- The serialization prefix `ET.tostring` (line 168) writes for a
qualified tag's URI: the registered prefix when the URI appears in the
registration table, otherwise a generated `ns0` default.  Models the
standard-library serializer the script calls. -/
def tostringPfx (table : List (String × String)) (uri : String) : String :=
  match table.find? (fun kv => kv.2 == uri) with
  | some kv => kv.1
  | none => "ns0"

mutual

/-- The minidom view of a merged ElementTree element: element text
becomes a leading text child.  Tags carry over verbatim, which is
faithful only for unqualified tags and for qualified tags whose URI the
registration table covers; ET's universal-name storage and the
serializer's prefix assignment for uncovered URIs are modelled by
`qualTagUri` and `tostringPfx` (see C9: such prefixes are renamed). -/
def elemToDom : Elem → DNode
  | .mk t a x cs =>
    .element t (beforeColon t) a
      ((match x with | some s => [DNode.text s] | none => []) ++ elemToDomL cs)

def elemToDomL : List Elem → List DNode
  | [] => []
  | c :: cs => elemToDom c :: elemToDomL cs

end

/-- `line.strip()`-based blank-line removal of line 212. -/
def stripBlankLines (s : String) : String :=
  String.intercalate "\n" ((s.splitOn "\n").filter (fun l => !(l.trim.isEmpty)))

def xmlDecl : String := "<?xml version=\"1.0\" ?>"

/-- The serializer of lines 167-213: re-render, fix namespace prefixes,
literalize item links, pretty-print (indentation elided) and drop blank
lines. -/
def serializeDoc (rss : Elem) : String :=
  stripBlankLines (xmlDecl ++ "\n" ++ serializeNode (cdataFixRoot (fixNsNode (elemToDom rss))))

/-- `merge_episode_into_feed` end to end: parse (with one repair
attempt), merge structurally, serialize.  `none` models a propagated
exception: no output bytes are produced. -/
def mergeEpisodeIntoFeed (parseFn : String → Option Elem) (now : String)
    (feed : Option Elem) (epText : String) : Option String :=
  match parseEpisode parseFn epText with
  | none => none
  | some root =>
    match mergeFeed now feed root with
    | some rss => some (serializeDoc rss)
    | none => none

mutual

/-- All element tag names of a DOM subtree, in document order: the
serialization writes exactly these strings (prefixes included), so their
preservation captures prefix preservation. -/
def domTagsN : DNode → List String
  | .element tn _ _ cs => tn :: domTagsL cs
  | _ => []

def domTagsL : List DNode → List String
  | [] => []
  | c :: cs => domTagsN c ++ domTagsL cs

end

/-! ### Concrete elements used by witnesses and counterexamples -/

/-- An item with a guid child and a link child. -/
def exItem (g l : String) : Elem :=
  .mk "item" [] none [.mk "guid" [] (some g) [], .mk "link" [] (some l) []]

/-- An item with only a link child. -/
def linkOnlyItem (l : String) : Elem :=
  .mk "item" [] none [.mk "link" [] (some l) []]

mutual

/-- Structural size of an element, used to show that the subtree search
never returns the root itself. -/
def esize : Elem → Nat
  | .mk _ _ _ cs => 1 + lsizeE cs

def lsizeE : List Elem → Nat
  | [] => 0
  | c :: cs => esize c + lsizeE cs

end

/-! ## Lemmas about the duplicate-detection loop -/

theorem addIf_mem (o : Option String) (l : List String) (x : String) :
    x ∈ addIf o l ↔ o = some x ∨ x ∈ l := by
  cases o with
  | none => simp [addIf]
  | some s => simp [addIf, eq_comm]

theorem mem_existingGuids (items : List Elem) (g : String) :
    g ∈ existingGuids items ↔ ∃ e ∈ items, guidText e = some g := by
  simp [existingGuids, List.mem_filterMap]

theorem mem_existingLinks (items : List Elem) (l : String) :
    l ∈ existingLinks items ↔ ∃ e ∈ items, linkText e = some l := by
  simp [existingLinks, List.mem_filterMap]

theorem dedupLoop_append (xs ys : List Elem) : ∀ gs ls,
    dedupLoop gs ls (xs ++ ys) =
      dedupLoop gs ls xs ++
        dedupLoop (loopState gs ls xs).1 (loopState gs ls xs).2 ys := by
  induction xs with
  | nil => intro gs ls; simp [dedupLoop, loopState]
  | cons it rest ih =>
    intro gs ls
    cases h : isDup gs ls it <;> simp [dedupLoop, loopState, h, ih]

theorem loopState_fst_mem (xs : List Elem) : ∀ gs ls (g : String),
    g ∈ (loopState gs ls xs).1 ↔
      g ∈ gs ∨ ∃ e ∈ dedupLoop gs ls xs, guidText e = some g := by
  induction xs with
  | nil => intro gs ls g; simp [loopState, dedupLoop]
  | cons it rest ih =>
    intro gs ls g
    cases h : isDup gs ls it with
    | true => simp [loopState, dedupLoop, h, ih]
    | false =>
      simp [loopState, dedupLoop, h, ih, addIf_mem]
      tauto

theorem loopState_snd_mem (xs : List Elem) : ∀ gs ls (l : String),
    l ∈ (loopState gs ls xs).2 ↔
      l ∈ ls ∨ ∃ e ∈ dedupLoop gs ls xs, linkText e = some l := by
  induction xs with
  | nil => intro gs ls l; simp [loopState, dedupLoop]
  | cons it rest ih =>
    intro gs ls l
    cases h : isDup gs ls it with
    | true => simp [loopState, dedupLoop, h, ih]
    | false =>
      simp [loopState, dedupLoop, h, ih, addIf_mem]
      tauto

theorem dedupLoop_sublist (xs : List Elem) : ∀ gs ls,
    List.Sublist (dedupLoop gs ls xs) xs := by
  induction xs with
  | nil => intro gs ls; simp [dedupLoop]
  | cons it rest ih =>
    intro gs ls
    cases h : isDup gs ls it with
    | true =>
      simpa [dedupLoop, h] using List.Sublist.cons it (ih gs ls)
    | false =>
      simpa [dedupLoop, h] using
        List.Sublist.cons₂ it (ih (addIf (guidText it) gs) (addIf (linkText it) ls))

theorem dedupLoop_singleton (gs ls : List String) (c : Elem) :
    dedupLoop gs ls [c] = if isDup gs ls c then [] else [c] := by
  cases h : isDup gs ls c <;> simp [dedupLoop, h]

theorem dedupLoop_drop_iff (gs ls : List String) (xs : List Elem) (c : Elem) :
    dedupLoop gs ls (xs ++ [c]) = dedupLoop gs ls xs ↔
      isDup (loopState gs ls xs).1 (loopState gs ls xs).2 c = true := by
  rw [dedupLoop_append, dedupLoop_singleton, List.append_right_eq_self]
  cases h : isDup (loopState gs ls xs).1 (loopState gs ls xs).2 c <;> simp

theorem dedupLoop_countP_guid_zero (g : String) (xs : List Elem) : ∀ gs ls, g ∈ gs →
    (dedupLoop gs ls xs).countP (fun e => guidText e == some g) = 0 := by
  induction xs with
  | nil => intro gs ls _; simp [dedupLoop]
  | cons it rest ih =>
    intro gs ls hg
    cases h : isDup gs ls it with
    | true => simpa [dedupLoop, h] using ih gs ls hg
    | false =>
      have hne : guidText it ≠ some g := by
        intro hgt
        have : isDup gs ls it = true := by
          simp [isDup, hgt, List.elem_iff, hg]
        simp [this] at h
      have hp : (guidText it == some g) = false := by
        simpa using hne
      simp only [dedupLoop, h, Bool.false_eq_true, if_false, List.countP_cons, hp, if_false]
      simpa using ih (addIf (guidText it) gs) (addIf (linkText it) ls)
        (by cases hgt : guidText it <;> simp [addIf, hg])

theorem survivors_drop_iff (ex pre : List Elem) (c : Elem) :
    survivors ex (pre ++ [c]) = survivors ex pre ↔
      isDup (loopState (existingGuids ex) (existingLinks ex) pre).1
        (loopState (existingGuids ex) (existingLinks ex) pre).2 c = true := by
  unfold survivors
  exact dedupLoop_drop_iff _ _ pre c

theorem dedupLoop_countP_guid_le_one (g : String) (xs : List Elem) : ∀ gs ls,
    (dedupLoop gs ls xs).countP (fun e => guidText e == some g) ≤ 1 := by
  induction xs with
  | nil => intro gs ls; simp [dedupLoop]
  | cons it rest ih =>
    intro gs ls
    cases h : isDup gs ls it with
    | true => simpa [dedupLoop, h] using ih gs ls
    | false =>
      cases hgt : guidText it with
      | some g' =>
        by_cases hgg : g' = g
        · subst hgg
          have hz : (dedupLoop (addIf (some g') gs) (addIf (linkText it) ls) rest).countP
              (fun e => guidText e == some g') = 0 := by
            have h0 := dedupLoop_countP_guid_zero g' rest (addIf (guidText it) gs)
              (addIf (linkText it) ls) (by simp [hgt, addIf])
            rwa [hgt] at h0
          have hstep : dedupLoop gs ls (it :: rest) =
              it :: dedupLoop (addIf (some g') gs) (addIf (linkText it) ls) rest := by
            simp [dedupLoop, h, hgt]
          rw [hstep, List.countP_cons, hz]
          simp [hgt]
        · have hp : (guidText it == some g) = false := by simp [hgt, hgg]
          simp only [dedupLoop, h, Bool.false_eq_true, if_false, List.countP_cons, hp, if_false]
          simpa using ih (addIf (guidText it) gs) (addIf (linkText it) ls)
      | none =>
        have hp : (guidText it == some g) = false := by simp [hgt]
        simp only [dedupLoop, h, Bool.false_eq_true, if_false, List.countP_cons, hp, if_false]
        simpa using ih (addIf (guidText it) gs) (addIf (linkText it) ls)

/-! ## Claim C1 -/

/-- C1 as stated is false: in the merge below the second candidate
carries the non-empty guid `g1`, no existing item's guid is `g1` (the
only existing guid is `eg`), and yet the candidate is dropped — only
the first candidate survives — because an earlier candidate of the same
batch was kept with that guid.  Likewise a guid-less candidate with
link `lb` is dropped although no existing item has that link. -/
theorem c1_counterexample :
    (survivors [exItem "eg" "el"] [exItem "g1" "l1", exItem "g1" "l2"]).map linkText
        = [some "l1"] ∧
    guidText (exItem "g1" "l2") = some "g1" ∧
    ¬ ("g1" ∈ existingGuids [exItem "eg" "el"]) ∧
    (survivors [linkOnlyItem "ea"] [linkOnlyItem "lb", linkOnlyItem "lb"]).map linkText
        = [some "lb"] ∧
    guidText (linkOnlyItem "lb") = none ∧
    linkText (linkOnlyItem "lb") = some "lb" ∧
    ¬ ("lb" ∈ existingLinks [linkOnlyItem "ea"]) := by
  refine ⟨rfl, rfl, by decide, rfl, rfl, rfl, by decide⟩

/-- C1 (amended): in a merge, a candidate whose guid text is non-empty
is dropped if and only if that guid equals the guid of some existing
item or of some earlier-kept candidate of the same batch; a candidate
whose guid is absent or empty but whose link text is non-empty is
dropped if and only if that link equals the link of some existing item
or of some earlier-kept candidate of the same batch. -/
theorem c1_dedup_membership (ex pre : List Elem) (c : Elem) :
    (∀ g, guidText c = some g →
      (survivors ex (pre ++ [c]) = survivors ex pre ↔
        (∃ e ∈ ex, guidText e = some g) ∨ ∃ e ∈ survivors ex pre, guidText e = some g)) ∧
    (guidText c = none → ∀ l, linkText c = some l →
      (survivors ex (pre ++ [c]) = survivors ex pre ↔
        (∃ e ∈ ex, linkText e = some l) ∨ ∃ e ∈ survivors ex pre, linkText e = some l)) := by
  constructor
  · intro g hg
    rw [survivors_drop_iff]
    simp only [isDup, hg]
    rw [List.elem_iff, loopState_fst_mem, mem_existingGuids]
    exact Iff.rfl
  · intro hg l hl
    rw [survivors_drop_iff]
    simp only [isDup, hg, hl]
    rw [List.elem_iff, loopState_snd_mem, mem_existingLinks]
    exact Iff.rfl

/-- Witness for C1: a candidate whose guid matches an existing item's
guid is dropped. -/
theorem c1_dedup_membership_witness :
    survivors [exItem "eg" "el"] ([] ++ [exItem "eg" "l9"]) = survivors [exItem "eg" "el"] [] :=
  ((c1_dedup_membership [exItem "eg" "el"] [] (exItem "eg" "l9")).1 "eg" rfl).mpr
    (Or.inl ⟨exItem "eg" "el", List.Mem.head _, rfl⟩)

/-! ## Claim C3 -/

/-- C3: at most one item with any given non-empty guid survives a
single merge's duplicate detection: once a candidate is kept, its guid
joins the sets and every later candidate with that guid is dropped. -/
theorem c3_intra_batch_dedup (ex cands : List Elem) (g : String) :
    (survivors ex cands).countP (fun e => guidText e == some g) ≤ 1 :=
  dedupLoop_countP_guid_le_one g cands _ _

/-! ## Claim C10 -/

/-- C10: when a candidate is kept, both its non-empty guid text and its
non-empty link text are added to the duplicate-detection sets, so a
later guid-less candidate of the same batch whose link equals the link
of the earlier guid-bearing kept candidate is dropped. -/
theorem c10_both_keys_added (ex pre : List Elem) (a b : Elem) (g l : String)
    (ha : a ∈ survivors ex pre) (hg : guidText a = some g) (hl : linkText a = some l)
    (hbg : guidText b = none) (hbl : linkText b = some l) :
    g ∈ (loopState (existingGuids ex) (existingLinks ex) pre).1 ∧
    l ∈ (loopState (existingGuids ex) (existingLinks ex) pre).2 ∧
    survivors ex (pre ++ [b]) = survivors ex pre := by
  refine ⟨?_, ?_, ?_⟩
  · exact (loopState_fst_mem pre _ _ g).mpr (Or.inr ⟨a, ha, hg⟩)
  · exact (loopState_snd_mem pre _ _ l).mpr (Or.inr ⟨a, ha, hl⟩)
  · rw [survivors_drop_iff]
    simp only [isDup, hbg, hbl]
    rw [List.elem_iff, loopState_snd_mem]
    exact Or.inr ⟨a, ha, hl⟩

/-- Witness for C10: the guid-bearing candidate `exItem "g" "l"` is kept
first; the guid-less candidate with the same link is then dropped. -/
theorem c10_both_keys_added_witness :
    "g" ∈ (loopState (existingGuids []) (existingLinks []) [exItem "g" "l"]).1 ∧
    "l" ∈ (loopState (existingGuids []) (existingLinks []) [exItem "g" "l"]).2 ∧
    survivors [] ([exItem "g" "l"] ++ [linkOnlyItem "l"]) = survivors [] [exItem "g" "l"] :=
  c10_both_keys_added [] [exItem "g" "l"] (exItem "g" "l") (linkOnlyItem "l") "g" "l"
    (List.Mem.head _) rfl rfl rfl rfl

/-! ## Lemmas about candidate extraction and the channel rebuild -/

mutual

theorem descItems_tag : ∀ (e : Elem), ∀ x ∈ descItems e, x.tag = "item"
  | .mk _ _ _ cs => by
    intro x hx
    simp only [descItems] at hx
    exact descItemsL_tag cs x hx

theorem descItemsL_tag : ∀ (l : List Elem), ∀ x ∈ descItemsL l, x.tag = "item"
  | [] => by simp [descItemsL]
  | c :: cs => by
    intro x hx
    simp only [descItemsL, List.mem_append] at hx
    rcases hx with (hx | hx) | hx
    · by_cases hc : c.tag = "item"
      · rw [if_pos hc] at hx
        simp only [List.mem_singleton] at hx
        subst hx
        exact hc
      · rw [if_neg hc] at hx
        simp at hx
    · exact descItems_tag c x hx
    · exact descItemsL_tag cs x hx

end

mutual

theorem descItems_size : ∀ (e : Elem), ∀ x ∈ descItems e, esize x < esize e
  | .mk t a xt cs => by
    intro x hx
    simp only [descItems] at hx
    have h := descItemsL_size cs x hx
    simp only [esize]
    omega

theorem descItemsL_size : ∀ (l : List Elem), ∀ x ∈ descItemsL l, esize x ≤ lsizeE l
  | [] => by simp [descItemsL]
  | c :: cs => by
    intro x hx
    simp only [descItemsL, List.mem_append] at hx
    rcases hx with (hx | hx) | hx
    · by_cases hc : c.tag = "item"
      · rw [if_pos hc] at hx
        simp only [List.mem_singleton] at hx
        subst hx
        simp only [lsizeE]
        omega
      · rw [if_neg hc] at hx
        simp at hx
    · have h := descItems_size c x hx
      simp only [lsizeE]
      omega
    · have h := descItemsL_size cs x hx
      simp only [lsizeE]
      omega

end

theorem self_not_mem_descItems (e : Elem) : e ∉ descItems e := fun h =>
  absurd (descItems_size e e h) (lt_irrefl _)

theorem candidateItems_tag (root : Elem) : ∀ x ∈ candidateItems root, x.tag = "item" := by
  intro x hx
  unfold candidateItems at hx
  by_cases hr : root.tag = "item"
  · rw [if_pos hr] at hx
    rcases List.mem_cons.mp hx with rfl | hx
    · exact hr
    · exact descItems_tag root x hx
  · rw [if_neg hr] at hx
    exact descItems_tag root x hx

theorem setText_tag (now : String) (e : Elem) : (setText now e).tag = e.tag := by
  cases e
  rfl

theorem filter_isItem_setBuildDate (now : String) (l : List Elem) :
    (setBuildDate now l).filter isItem = l.filter isItem := by
  induction l with
  | nil => simp [setBuildDate, isItem, Elem.tag]
  | cons c cs ih =>
    by_cases hc : c.tag = "lastBuildDate"
    · have h1 : isItem (setText now c) = false := by
        simp [isItem, setText_tag, hc]
      have h2 : isItem c = false := by simp [isItem, hc]
      simp [setBuildDate, hc, List.filter_cons, h1, h2]
    · simp [setBuildDate, hc, List.filter_cons, ih]

theorem mergeChannel_tag (now : String) (ch ep : Elem) :
    (mergeChannel now ch ep).tag = ch.tag := rfl

theorem remake_children (r : Elem) (cs : List Elem) : (remake r cs).children = cs := by
  cases r
  rfl

theorem replaceFirst_find? (p : Elem → Bool) (f : Elem → Elem)
    (hp : ∀ e, p e = true → p (f e) = true) :
    ∀ (l : List Elem) (ch : Elem), l.find? p = some ch →
      ∃ l', replaceFirst p f l = some l' ∧ l'.find? p = some (f ch) := by
  intro l
  induction l with
  | nil => intro ch h; simp at h
  | cons c cs ih =>
    intro ch h
    by_cases hc : p c = true
    · rw [List.find?_cons_of_pos _ hc] at h
      obtain rfl : c = ch := Option.some.inj h
      refine ⟨f c :: cs, ?_, ?_⟩
      · simp [replaceFirst, hc]
      · exact List.find?_cons_of_pos _ (hp c hc)
    · have hc' : p c = false := by simpa using hc
      rw [List.find?_cons_of_neg _ (by simp [hc'])] at h
      obtain ⟨l', hl', hf⟩ := ih ch h
      refine ⟨c :: l', ?_, ?_⟩
      · simp [replaceFirst, hc', hl']
      · rw [List.find?_cons_of_neg _ (by simp [hc'])]
        exact hf

theorem itemsOf_mergeChannel (now : String) (ch ep : Elem) :
    itemsOf (mergeChannel now ch ep) =
      survivors (itemsOf ch) (candidateItems ep) ++ itemsOf ch := by
  cases ch with
  | mk t a x cs =>
    have hkept : ∀ y ∈ dedupLoop (existingGuids (List.filter isItem cs))
        (existingLinks (List.filter isItem cs)) (candidateItems ep), isItem y = true := by
      intro y hy
      have hy' := (dedupLoop_sublist (candidateItems ep) _ _).subset hy
      simp [isItem, candidateItems_tag ep y hy']
    unfold itemsOf mergeChannel survivors
    simp only [Elem.children, Elem.tag, Elem.attrs, Elem.text, filter_isItem_setBuildDate]
    rw [List.filter_append, List.filter_append, List.filter_filter, List.filter_filter]
    rw [List.filter_eq_self.mpr hkept]
    simp

/-! ## Claim C2 -/

/-- C2: after a merge, the channel's item sequence is exactly the kept
candidates (a sublist of the candidate sequence, hence in their original
relative order) followed by all original existing items in their
original order; no existing item is dropped or reordered. -/
theorem c2_order_preservation (now : String) (rss ep ch : Elem)
    (hch : rss.children.find? (fun c => c.tag == "channel") = some ch) :
    ∃ rss', mergeFeed now (some rss) ep = some rss' ∧
      rss'.children.find? (fun c => c.tag == "channel") = some (mergeChannel now ch ep) ∧
      itemsOf (mergeChannel now ch ep) =
        survivors (itemsOf ch) (candidateItems ep) ++ itemsOf ch ∧
      List.Sublist (survivors (itemsOf ch) (candidateItems ep)) (candidateItems ep) := by
  have hp : ∀ e, (fun c => c.tag == "channel") e = true →
      (fun c => c.tag == "channel") (mergeChannel now e ep) = true := by
    intro e he
    simpa [mergeChannel_tag] using he
  obtain ⟨l', hl', hf⟩ := replaceFirst_find? _ _ hp rss.children ch hch
  refine ⟨remake rss l', ?_, ?_, itemsOf_mergeChannel now ch ep,
    dedupLoop_sublist (candidateItems ep) _ _⟩
  · unfold mergeFeed
    simp [hl']
  · rw [remake_children]
    exact hf

/-- Witness for C2: merging a two-candidate episode into a feed holding
one existing item. -/
theorem c2_order_preservation_witness :
    ∃ rss', mergeFeed "now" (some (Elem.mk "rss" [] none
        [Elem.mk "channel" [] none [exItem "eg" "el"]]))
      (Elem.mk "rss" [] none [exItem "g1" "l1", exItem "eg" "l2"]) = some rss' ∧
      rss'.children.find? (fun c => c.tag == "channel") =
        some (mergeChannel "now" (Elem.mk "channel" [] none [exItem "eg" "el"])
          (Elem.mk "rss" [] none [exItem "g1" "l1", exItem "eg" "l2"])) ∧
      itemsOf (mergeChannel "now" (Elem.mk "channel" [] none [exItem "eg" "el"])
          (Elem.mk "rss" [] none [exItem "g1" "l1", exItem "eg" "l2"])) =
        survivors (itemsOf (Elem.mk "channel" [] none [exItem "eg" "el"]))
            (candidateItems (Elem.mk "rss" [] none [exItem "g1" "l1", exItem "eg" "l2"])) ++
          itemsOf (Elem.mk "channel" [] none [exItem "eg" "el"]) ∧
      List.Sublist
        (survivors (itemsOf (Elem.mk "channel" [] none [exItem "eg" "el"]))
          (candidateItems (Elem.mk "rss" [] none [exItem "g1" "l1", exItem "eg" "l2"])))
        (candidateItems (Elem.mk "rss" [] none [exItem "g1" "l1", exItem "eg" "l2"])) :=
  c2_order_preservation "now" _ _ _ rfl

/-! ## Claim C7 -/

/-- C7: an episode whose root element is itself an item is merged
exactly like the same item nested inside a (non-item) wrapper element;
the root is included as a candidate although the subtree search alone
never returns it. -/
theorem c7_bare_root_item (now : String) (ch I w : Elem)
    (hI : I.tag = "item") (hw : w.tag ≠ "item") (hwc : w.children = [I]) :
    candidateItems I = I :: descItems I ∧
    I ∉ descItems I ∧
    candidateItems w = I :: descItems I ∧
    mergeChannel now ch I = mergeChannel now ch w := by
  have h1 : candidateItems I = I :: descItems I := by
    unfold candidateItems
    rw [if_pos hI]
  have h3 : candidateItems w = I :: descItems I := by
    unfold candidateItems
    rw [if_neg hw]
    cases w with
    | mk t a x cs =>
      simp only [Elem.children] at hwc
      subst hwc
      simp [descItems, descItemsL, hI]
  refine ⟨h1, self_not_mem_descItems I, h3, ?_⟩
  unfold mergeChannel
  rw [h1, h3]

/-- Witness for C7 at a concrete item and wrapper. -/
theorem c7_bare_root_item_witness :
    candidateItems (exItem "g" "l") = exItem "g" "l" :: descItems (exItem "g" "l") ∧
    exItem "g" "l" ∉ descItems (exItem "g" "l") ∧
    candidateItems (Elem.mk "rss" [] none [exItem "g" "l"]) =
      exItem "g" "l" :: descItems (exItem "g" "l") ∧
    mergeChannel "now" freshChannel (exItem "g" "l") =
      mergeChannel "now" freshChannel (Elem.mk "rss" [] none [exItem "g" "l"]) :=
  c7_bare_root_item "now" freshChannel (exItem "g" "l") (Elem.mk "rss" [] none [exItem "g" "l"])
    rfl (by decide) rfl

/-! ## Claim C8 -/

/-- C8: merging into a missing feed file yields a document whose channel
carries the fixed site defaults (title `TechNewsDaily`, link `/`, the
site description, language `en-us`, plus the fresh build date), and
whose item elements are exactly the surviving candidates of the
episode. -/
theorem c8_fresh_feed (now : String) (ep : Elem) :
    mergeFeed now none ep = some (Elem.mk "rss" (NAMESPACES ++ [("version", "2.0")]) none
      [Elem.mk "channel" [] none
        ([Elem.mk "title" [] (some SITE_TITLE) [], Elem.mk "link" [] (some SITE_LINK) [],
          Elem.mk "description" [] (some SITE_DESC) [], Elem.mk "language" [] (some "en-us") [],
          Elem.mk "lastBuildDate" [] (some now) []] ++ survivors [] (candidateItems ep))]) ∧
    itemsOf (Elem.mk "channel" [] none
      ([Elem.mk "title" [] (some SITE_TITLE) [], Elem.mk "link" [] (some SITE_LINK) [],
        Elem.mk "description" [] (some SITE_DESC) [], Elem.mk "language" [] (some "en-us") [],
        Elem.mk "lastBuildDate" [] (some now) []] ++ survivors [] (candidateItems ep))) =
      survivors [] (candidateItems ep) := by
  constructor
  · have hch : mergeChannel now freshChannel ep = Elem.mk "channel" [] none
        ([Elem.mk "title" [] (some SITE_TITLE) [], Elem.mk "link" [] (some SITE_LINK) [],
          Elem.mk "description" [] (some SITE_DESC) [], Elem.mk "language" [] (some "en-us") [],
          Elem.mk "lastBuildDate" [] (some now) []] ++ survivors [] (candidateItems ep)) := by
      unfold mergeChannel freshChannel survivors
      simp [setBuildDate, isItem, Elem.tag, Elem.children, Elem.attrs, Elem.text,
        existingGuids, existingLinks]
    unfold mergeFeed
    have h1 : replaceFirst (fun c => c.tag == "channel") (fun c => mergeChannel now c ep)
        freshRss.children = some [mergeChannel now freshChannel ep] := by
      have h2 : (freshChannel.tag == "channel") = true := rfl
      simp [freshRss, Elem.children, replaceFirst, h2]
    simp only [Option.getD, h1]
    simp only [freshRss, remake]
    rw [hch]
  · unfold itemsOf
    simp only [Elem.children]
    rw [List.filter_append]
    have h1 : List.filter isItem
        [Elem.mk "title" [] (some SITE_TITLE) [], Elem.mk "link" [] (some SITE_LINK) [],
         Elem.mk "description" [] (some SITE_DESC) [], Elem.mk "language" [] (some "en-us") [],
         Elem.mk "lastBuildDate" [] (some now) []] = [] := by
      simp [isItem, Elem.tag]
    have h2 : List.filter isItem (survivors [] (candidateItems ep)) =
        survivors [] (candidateItems ep) := by
      refine List.filter_eq_self.mpr ?_
      intro x hx
      have hx' := (dedupLoop_sublist (candidateItems ep) _ _).subset hx
      simp [isItem, candidateItems_tag ep x hx']
    rw [h1, h2]
    simp

/-! ## Lemmas about the text-level repair -/

theorem leadsWith_length (p : List Char) : ∀ s, leadsWith p s = true → p.length ≤ s.length := by
  induction p with
  | nil => intro s _; simp
  | cons c cs ih =>
    intro s h
    cases s with
    | nil => simp [leadsWith] at h
    | cons d ds =>
      simp only [leadsWith, Bool.and_eq_true] at h
      have := ih ds h.2
      simp only [List.length_cons]
      omega

theorem leadsWith_append (p r : List Char) : leadsWith p (p ++ r) = true := by
  induction p with
  | nil => simp [leadsWith]
  | cons c cs ih => simp [leadsWith, ih]

theorem leadsWith_take_eq (p : List Char) : ∀ s₁ s₂,
    s₁.take p.length = s₂.take p.length → leadsWith p s₁ = leadsWith p s₂ := by
  induction p with
  | nil => intro s₁ s₂ _; rfl
  | cons c cs ih =>
    intro s₁ s₂ h
    cases s₁ with
    | nil =>
      cases s₂ with
      | nil => rfl
      | cons d ds => simp at h
    | cons a as =>
      cases s₂ with
      | nil => simp at h
      | cons d ds =>
        simp only [List.length_cons, List.take_succ_cons, List.cons.injEq] at h
        simp only [leadsWith, h.1, ih as ds h.2]

theorem leadsWith_decomp (p : List Char) : ∀ s, leadsWith p s = true →
    s = p ++ s.drop p.length := by
  induction p with
  | nil => intro s _; simp
  | cons c cs ih =>
    intro s h
    cases s with
    | nil => simp [leadsWith] at h
    | cons d ds =>
      simp only [leadsWith, Bool.and_eq_true, beq_iff_eq] at h
      obtain ⟨rfl, h2⟩ := h
      simpa using ih ds h2

/-- Transfer a no-occurrence-at-the-front fact from the straddle-guard
list `x ++ take (n-1) pat` to the real text `x ++ pat ++ r`: whether a
pattern begins a list only depends on the first `n` characters. -/
theorem leadsWith_false_extend (pat x r : List Char) (hx : x ≠ [])
    (h : leadsWith pat (x ++ pat.take (pat.length - 1)) = false) :
    leadsWith pat (x ++ pat ++ r) = false := by
  have hn1 : 1 ≤ pat.length := by
    cases hp : pat with
    | nil => rw [hp] at h; simp [leadsWith] at h
    | cons p ps => simp
  have hx1 : 1 ≤ x.length := by
    cases x with
    | nil => exact absurd rfl hx
    | cons y ys => simp
  have htake : (x ++ pat ++ r).take pat.length =
      (x ++ pat.take (pat.length - 1)).take pat.length := by
    rw [List.append_assoc]
    rw [show (x ++ (pat ++ r)).take pat.length =
        x.take pat.length ++ (pat ++ r).take (pat.length - x.length) from
      List.take_append_eq_append_take]
    rw [show (x ++ pat.take (pat.length - 1)).take pat.length =
        x.take pat.length ++ (pat.take (pat.length - 1)).take (pat.length - x.length) from
      List.take_append_eq_append_take]
    congr 1
    rw [List.take_append_of_le_length (by omega), List.take_take]
    congr 1
    omega
  rw [← h]
  exact leadsWith_take_eq pat _ _ htake

theorem hasSub_tail (pat : List Char) (c : Char) (cs : List Char)
    (h : hasSub pat (c :: cs) = false) : hasSub pat cs = false := by
  simp only [hasSub, Bool.or_eq_false_iff] at h
  exact h.2

theorem hasSub_head (pat : List Char) (c : Char) (cs : List Char)
    (h : hasSub pat (c :: cs) = false) : leadsWith pat (c :: cs) = false := by
  simp only [hasSub, Bool.or_eq_false_iff] at h
  exact h.1

theorem splitAtSub_length (pat : List Char) : ∀ s b a,
    splitAtSub pat s = some (b, a) → a.length ≤ s.length := by
  intro s
  induction s with
  | nil =>
    intro b a h
    simp only [splitAtSub] at h
    split at h
    · simp only [Option.some.injEq, Prod.mk.injEq] at h
      obtain ⟨rfl, rfl⟩ := h
      simp
    · simp at h
  | cons c cs ih =>
    intro b a h
    simp only [splitAtSub] at h
    split at h
    · simp only [Option.some.injEq, Prod.mk.injEq] at h
      obtain ⟨rfl, rfl⟩ := h
      simp only [List.length_drop, List.length_cons]
      omega
    · cases hs : splitAtSub pat cs with
      | none => rw [hs] at h; simp at h
      | some ba =>
        obtain ⟨b', a'⟩ := ba
        rw [hs] at h
        simp only [Option.some.injEq, Prod.mk.injEq] at h
        obtain ⟨rfl, rfl⟩ := h
        have := ih b' a' hs
        simp only [List.length_cons]
        omega

theorem splitAtSub_amp (b a : List Char) (hb : ampC ∉ b) :
    splitAtSub [ampC] (b ++ ampC :: a) = some (b, a) := by
  induction b with
  | nil => simp [splitAtSub, leadsWith]
  | cons c cs ih =>
    have hc : c ≠ ampC := by
      intro hc
      exact hb (by simp [hc])
    have ih' := ih (fun h => hb (List.mem_cons_of_mem c h))
    have hlw : leadsWith [ampC] (c :: (cs ++ ampC :: a)) = false := by
      simp [leadsWith, beq_iff_eq, Ne.symm hc]
    show splitAtSub [ampC] (c :: (cs ++ ampC :: a)) = some (c :: cs, a)
    simp only [splitAtSub]
    rw [hlw]
    simp only [Bool.false_eq_true, if_false]
    rw [ih']

theorem splitAtSub_pat (pat : List Char) (hne : 1 ≤ pat.length) : ∀ b a,
    hasSub pat (b ++ pat.take (pat.length - 1)) = false →
    splitAtSub pat (b ++ pat ++ a) = some (b, a) := by
  intro b
  induction b with
  | nil =>
    intro a _
    cases hp : pat with
    | nil =>
      subst hp
      simp at hne
    | cons p ps =>
      subst hp
      have h1 : leadsWith (p :: ps) (p :: (ps ++ a)) = true := by
        simpa using leadsWith_append (p :: ps) a
      show splitAtSub (p :: ps) (p :: (ps ++ a)) = some ([], a)
      simp only [splitAtSub, h1, if_true, List.length_cons, List.drop_succ_cons,
        Option.some.injEq, Prod.mk.injEq, true_and]
      exact List.drop_left ps a
  | cons c cs ih =>
    intro a h
    have hhead : leadsWith pat ((c :: cs) ++ pat.take (pat.length - 1)) = false := by
      have h0 := hasSub_head pat c (cs ++ pat.take (pat.length - 1)) (by simpa using h)
      simpa using h0
    have hlw : leadsWith pat (c :: (cs ++ (pat ++ a))) = false := by
      have h0 := leadsWith_false_extend pat (c :: cs) a (by simp) hhead
      simpa using h0
    have htail : hasSub pat (cs ++ pat.take (pat.length - 1)) = false :=
      hasSub_tail pat c _ (by simpa using h)
    have ih' := ih a htail
    rw [show (c :: cs) ++ pat ++ a = c :: (cs ++ (pat ++ a)) by simp]
    simp only [splitAtSub]
    rw [hlw]
    simp only [Bool.false_eq_true, if_false]
    rw [show cs ++ (pat ++ a) = cs ++ pat ++ a from (List.append_assoc cs pat a).symm, ih']

theorem matchLink_decomp (b1 b2 post : List Char) (hb1 : ampC ∉ b1)
    (hb2 : hasSub linkCloseL (b2 ++ linkCloseL.take 6) = false) :
    matchLink (b1 ++ ampC :: (b2 ++ linkCloseL ++ post)) = some (b1 ++ ampC :: b2, post) := by
  unfold matchLink
  rw [splitAtSub_amp b1 (b2 ++ linkCloseL ++ post) hb1]
  dsimp only
  rw [splitAtSub_pat linkCloseL (by rw [show linkCloseL.length = 7 from rfl]; omega) b2 post
    (by rw [show linkCloseL.length - 1 = 6 from rfl]; exact hb2)]

theorem matchLink_length (t inner rest : List Char) (h : matchLink t = some (inner, rest)) :
    rest.length ≤ t.length := by
  unfold matchLink at h
  cases h1 : splitAtSub [ampC] t with
  | none => rw [h1] at h; simp at h
  | some ba =>
    obtain ⟨b1, a1⟩ := ba
    rw [h1] at h
    dsimp only at h
    cases h2 : splitAtSub linkCloseL a1 with
    | none => rw [h2] at h; simp at h
    | some ba2 =>
      obtain ⟨b2, rest'⟩ := ba2
      rw [h2] at h
      dsimp only at h
      simp only [Option.some.injEq, Prod.mk.injEq] at h
      obtain ⟨h3, rfl⟩ := h
      have l1 := splitAtSub_length [ampC] t b1 a1 h1
      have l2 := splitAtSub_length linkCloseL a1 b2 rest' h2
      omega

theorem repairFuel_irrel : ∀ f g s, s.length < f → s.length < g →
    repairFuel f s = repairFuel g s := by
  intro f
  induction f with
  | zero => intro g s hf _; omega
  | succ f ih =>
    intro g s hf hg
    cases g with
    | zero => omega
    | succ g =>
      cases s with
      | nil => rfl
      | cons c cs =>
        simp only [repairFuel]
        cases hlw : leadsWith linkOpenL (c :: cs) with
        | false =>
          simp only [Bool.false_eq_true, if_false]
          rw [ih g cs (by simp at hf; omega) (by simp at hg; omega)]
        | true =>
          simp only [if_true]
          cases hm : matchLink (List.drop 6 (c :: cs)) with
          | none =>
            dsimp only
            rw [ih g cs (by simp at hf; omega) (by simp at hg; omega)]
          | some ir =>
            obtain ⟨inner, rest⟩ := ir
            have hlen := matchLink_length _ _ _ hm
            simp only [List.length_drop, List.length_cons] at hlen
            dsimp only
            rw [ih g rest (by simp at hf; omega) (by simp at hg; omega)]

theorem repairText_cons_of_neg (c : Char) (cs : List Char)
    (h : leadsWith linkOpenL (c :: cs) = false) :
    repairText (c :: cs) = c :: repairText cs := by
  unfold repairText
  simp only [List.length_cons, repairFuel, h, Bool.false_eq_true, if_false]

theorem repair_no_amp : ∀ s, ampC ∉ s → repairText s = s := by
  have key : ∀ f s, ampC ∉ s → repairFuel f s = s := by
    intro f
    induction f with
    | zero => intro s _; rfl
    | succ f ih =>
      intro s hs
      cases s with
      | nil => rfl
      | cons c cs =>
        have hcs : ampC ∉ cs := fun h => hs (List.mem_cons_of_mem c h)
        have hm : splitAtSub [ampC] (List.drop 6 (c :: cs)) = none := by
          have hnd : ampC ∉ List.drop 6 (c :: cs) := fun h =>
            hs (List.drop_subset 6 (c :: cs) h)
          clear hs hcs ih
          generalize List.drop 6 (c :: cs) = t at hnd
          induction t with
          | nil => rfl
          | cons d ds iht =>
            have hd : leadsWith [ampC] (d :: ds) = false := by
              have : d ≠ ampC := fun h => hnd (by simp [h])
              simp [leadsWith, Ne.symm this]
            simp only [splitAtSub, hd, Bool.false_eq_true, if_false]
            rw [iht (fun h => hnd (List.mem_cons_of_mem d h))]
        simp only [repairFuel]
        cases hlw : leadsWith linkOpenL (c :: cs) with
        | false => simp only [Bool.false_eq_true, if_false, ih cs hcs]
        | true =>
          simp only [if_true, matchLink, hm, ih cs hcs]
  intro s hs
  exact key (s.length + 1) s hs

theorem repair_scan : ∀ pre rest, hasSub linkOpenL (pre ++ linkOpenL.take 5) = false →
    leadsWith linkOpenL rest = true →
    repairText (pre ++ rest) = pre ++ repairText rest := by
  intro pre
  induction pre with
  | nil => intro rest _ _; rfl
  | cons c cs ih =>
    intro rest h hlw
    have hd := leadsWith_decomp linkOpenL rest hlw
    have hhead : leadsWith linkOpenL ((c :: cs) ++ linkOpenL.take (linkOpenL.length - 1)) = false := by
      have h0 := hasSub_head linkOpenL c (cs ++ linkOpenL.take 5) (by simpa using h)
      rw [show linkOpenL.length - 1 = 5 from rfl]
      simpa using h0
    have hfront0 := leadsWith_false_extend linkOpenL (c :: cs)
      (rest.drop linkOpenL.length) (by simp) hhead
    have hfront : leadsWith linkOpenL (c :: (cs ++ rest)) = false := by
      rw [hd]
      simpa using hfront0
    have htail : hasSub linkOpenL (cs ++ linkOpenL.take 5) = false :=
      hasSub_tail linkOpenL c _ (by simpa using h)
    calc repairText ((c :: cs) ++ rest) = repairText (c :: (cs ++ rest)) := by
          rw [List.cons_append]
      _ = c :: repairText (cs ++ rest) := repairText_cons_of_neg c _ hfront
      _ = c :: (cs ++ repairText rest) := by rw [ih rest htail hlw]
      _ = (c :: cs) ++ repairText rest := by rw [List.cons_append]

theorem repairText_link_head (t inner rest : List Char) (hm : matchLink t = some (inner, rest)) :
    repairText (linkOpenL ++ t) = linkOpenL ++ wrapInner inner ++ linkCloseL ++ repairText rest := by
  have hsh : linkOpenL ++ t = '<' :: ("link>".data ++ t) := rfl
  have hlw : leadsWith linkOpenL ('<' :: ("link>".data ++ t)) = true := by
    rw [← hsh]
    exact leadsWith_append linkOpenL t
  have hdrop : List.drop 6 ('<' :: ("link>".data ++ t)) = t := by
    rw [← hsh, show (6 : Nat) = linkOpenL.length from rfl, List.drop_left]
  have h5 : ("link>".data : List Char).length = 5 := rfl
  have hrest := matchLink_length t inner rest hm
  unfold repairText
  rw [hsh]
  simp only [List.length_cons, repairFuel, hlw, if_true, hdrop, hm]
  rw [repairFuel_irrel (("link>".data ++ t).length + 1) (rest.length + 1) rest
    (by simp only [List.length_append, h5]; omega) (by omega)]

theorem repair_match (b1 b2 post : List Char) (hb1 : ampC ∉ b1)
    (hb2 : hasSub linkCloseL (b2 ++ linkCloseL.take 6) = false) :
    repairText (linkOpenL ++ (b1 ++ ampC :: b2) ++ linkCloseL ++ post) =
      linkOpenL ++ wrapInner (b1 ++ ampC :: b2) ++ linkCloseL ++ repairText post := by
  have hm := matchLink_decomp b1 b2 post hb1 hb2
  have h := repairText_link_head (b1 ++ ampC :: (b2 ++ linkCloseL ++ post))
    (b1 ++ ampC :: b2) post hm
  have hassoc : linkOpenL ++ (b1 ++ ampC :: b2) ++ linkCloseL ++ post =
      linkOpenL ++ (b1 ++ ampC :: (b2 ++ linkCloseL ++ post)) := by
    simp
  rw [hassoc, h]

/-! ## Claim C5 -/

/-- C5 as stated is false: in the text below the first link's enclosed
text `A` contains no ampersand and no CDATA marker, so the claim says it
is left byte-for-byte unchanged — but the lazy match extends across its
close tag to the `&` in the second link, and the repair wraps the whole
segment `A</link><link>B&C` in one CDATA section. -/
theorem c5_counterexample :
    wrapLinksCdata "<link>A</link><link>B&C</link>" =
      "<link><![CDATA[A</link><link>B&C]]></link>" ∧
    wrapLinksCdata "<link>A</link><link>B&C</link>" ≠
      "<link>A</link><link><![CDATA[B&C]]></link>" := by
  exact ⟨by decide, by decide⟩

/-- C5 (amended): a text containing no ampersand at all is left
unchanged.  At each `<link>` preceded by no other `<link>` marker, the
repair wraps in a CDATA section (unless a CDATA marker is already
inside) exactly the segment running from the open tag through the first
`&` to the first `</link>` after that `&` — which equals the enclosed
text when the text before the `&` crosses no `</link>` — leaving the
preceding characters unchanged and continuing after the close tag; a
`<link>` span without `&` that is followed later by an `&` is however
merged into the wrapped segment rather than left unchanged. -/
theorem c5_repair_scope :
    (∀ pre b1 b2 post : List Char,
      hasSub linkOpenL (pre ++ linkOpenL.take 5) = false →
      ampC ∉ b1 →
      hasSub linkCloseL (b2 ++ linkCloseL.take 6) = false →
      repairText (pre ++ (linkOpenL ++ (b1 ++ ampC :: b2) ++ linkCloseL ++ post)) =
        pre ++ (linkOpenL ++ wrapInner (b1 ++ ampC :: b2) ++ linkCloseL ++ repairText post)) ∧
    (∀ s : List Char, ampC ∉ s → repairText s = s) ∧
    (∀ s : String, wrapLinksCdata s = String.mk (repairText s.data)) := by
  refine ⟨?_, repair_no_amp, fun s => rfl⟩
  intro pre b1 b2 post hpre hb1 hb2
  have hr : linkOpenL ++ (b1 ++ ampC :: b2) ++ linkCloseL ++ post =
      linkOpenL ++ ((b1 ++ ampC :: b2) ++ (linkCloseL ++ post)) := by
    simp
  have hlw : leadsWith linkOpenL (linkOpenL ++ (b1 ++ ampC :: b2) ++ linkCloseL ++ post) = true := by
    rw [hr]
    exact leadsWith_append _ _
  rw [repair_scan pre _ hpre hlw, repair_match b1 b2 post hb1 hb2]

/-- Witness for C5 at a concrete text `x<link>a&b</link>y`. -/
theorem c5_repair_scope_witness :
    repairText ("x".data ++ (linkOpenL ++ ("a".data ++ ampC :: "b".data) ++ linkCloseL ++ "y".data)) =
      "x".data ++ (linkOpenL ++ wrapInner ("a".data ++ ampC :: "b".data) ++ linkCloseL ++
        repairText "y".data) :=
  c5_repair_scope.1 "x".data "a".data "b".data "y".data (by decide) (by decide) (by decide)

/-! ## Claim C4 -/

/-- C4: in the serialized merge output, every `link` whose parent is an
`item` carries a single CDATA section holding exactly the link's
original text content (the code's two collect-and-replace passes
collapse to one CDATA node); the CDATA text is serialized verbatim —
an `&` stays `&`, never `&amp;` — and a `link` under any other parent,
such as the channel, keeps its plain text child untouched. -/
theorem c4_link_cdata :
    (∀ lc, fixLinkChildren lc = [DNode.cdata (textContentD lc)]) ∧
    (∀ cs₁ cs₂ lpx lat lc,
      cdataFixList "item" (cs₁ ++ DNode.element "link" lpx lat lc :: cs₂) =
        cdataFixList "item" cs₁ ++
          DNode.element "link" lpx lat [DNode.cdata (textContentD lc)] ::
            cdataFixList "item" cs₂) ∧
    (∀ lpx s, serializeNode (DNode.element "link" lpx [] [DNode.cdata s]) =
      "<link><![CDATA[" ++ s ++ "]]></link>") ∧
    (∀ lpx lat s, cdataFixChild "channel" (DNode.element "link" lpx lat [DNode.text s]) =
      DNode.element "link" lpx lat [DNode.text s]) := by
  have hfix : ∀ lc, fixLinkChildren lc = [DNode.cdata (textContentD lc)] := by
    intro lc
    simp [fixLinkChildren, linkPass, textContentD]
  refine ⟨hfix, ?_, ?_, ?_⟩
  · intro cs₁
    induction cs₁ with
    | nil =>
      intro cs₂ lpx lat lc
      simp only [List.nil_append, cdataFixList]
      congr 1
      unfold cdataFixChild
      rw [if_pos ⟨rfl, rfl⟩, hfix]
    | cons c cs ih =>
      intro cs₂ lpx lat lc
      simp only [List.cons_append, cdataFixList]
      exact congrArg (cdataFixChild "item" c :: ·) (ih cs₂ lpx lat lc)
  · intro lpx s
    show ("<" ++ "link" ++ attrsText [] ++ ">") ++
        (("<![CDATA[" ++ s ++ "]]>") ++ "") ++ "</" ++ "link" ++ ">" =
      "<link><![CDATA[" ++ s ++ "]]></link>"
    simp only [String.append_assoc, String.append_empty]
    rw [show ("]]>" ++ ("</" ++ ("link" ++ ">")) : String) = "]]></link>" from rfl]
    rw [← String.append_assoc, ← String.append_assoc, ← String.append_assoc,
      ← String.append_assoc]
    rw [show (((("<" ++ "link") ++ attrsText []) ++ ">") ++ "<![CDATA[" : String) =
      "<link><![CDATA[" from rfl]
  · intro lpx lat s
    unfold cdataFixChild
    rw [if_neg (by simp)]
    rfl

/-! ## Claim C6 -/

/-- C6: when the episode text fails to parse and the once-repaired text
fails to parse as well, the merge produces no output bytes at all: the
parse failure propagates and there is no second repair attempt. -/
theorem c6_parse_failure_propagates (parseFn : String → Option Elem) (now : String)
    (feed : Option Elem) (epText : String)
    (h1 : parseFn epText = none) (h2 : parseFn (wrapLinksCdata epText) = none) :
    mergeEpisodeIntoFeed parseFn now feed epText = none := by
  simp [mergeEpisodeIntoFeed, parseEpisode, h1, h2]

/-- Witness for C6 with a parser that rejects everything. -/
theorem c6_parse_failure_propagates_witness :
    mergeEpisodeIntoFeed (fun _ => none) "now" none "<item>" = none :=
  c6_parse_failure_propagates (fun _ => none) "now" none "<item>" rfl rfl

/-! ## Lemmas about namespace registration -/

theorem splitCh_ne_nil (c : Char) : ∀ l, splitCh c l ≠ [] := by
  intro l
  cases l with
  | nil => simp [splitCh]
  | cons x xs =>
    simp only [splitCh]
    cases h : splitCh c xs with
    | nil => simp
    | cons y ys =>
      by_cases hx : x = c <;> simp [hx]

theorem splitCh_no_sep (c : Char) : ∀ l, c ∉ l → splitCh c l = [l] := by
  intro l
  induction l with
  | nil => intro _; rfl
  | cons x xs ih =>
    intro h
    have hx : x ≠ c := fun hx => h (by simp [hx])
    have hxs : c ∉ xs := fun hm => h (List.mem_cons_of_mem x hm)
    simp only [splitCh, ih hxs]
    simp [hx]

theorem splitCh_first (c : Char) : ∀ l1 l2, c ∉ l1 →
    splitCh c (l1 ++ c :: l2) = l1 :: splitCh c l2 := by
  intro l1
  induction l1 with
  | nil =>
    intro l2 _
    simp only [List.nil_append, splitCh]
    cases h : splitCh c l2 with
    | nil => exact absurd h (splitCh_ne_nil c l2)
    | cons y ys => simp
  | cons x xs ih =>
    intro l2 h
    have hx : x ≠ c := fun hx => h (by simp [hx])
    have hxs : c ∉ xs := fun hm => h (List.mem_cons_of_mem x hm)
    show splitCh c (x :: (xs ++ c :: l2)) = (x :: xs) :: splitCh c l2
    simp only [splitCh]
    rw [ih l2 hxs]
    simp [hx]

theorem afterColonPart_xmlns (p : String) (hp : strHasColon p = false) :
    afterColonPart ("xmlns:" ++ p) = p := by
  have hd : ("xmlns:" ++ p).data = "xmlns".data ++ ':' :: p.data := by
    rw [String.data_append]
    rfl
  have hnosep : ':' ∉ ("xmlns".data : List Char) := by decide
  have hnp : ':' ∉ p.data := by
    intro hm
    have hc : p.data.contains ':' = true := List.elem_iff.mpr hm
    rw [show strHasColon p = p.data.contains ':' from rfl] at hp
    rw [hp] at hc
    exact Bool.false_ne_true hc
  unfold afterColonPart
  rw [hd, splitCh_first ':' _ _ hnosep, splitCh_no_sep ':' _ hnp]

mutual

theorem fixNs_tags_node : ∀ d, domTagsN (fixNsNode d) = domTagsN d
  | .element tn px ats cs => by
    simp only [fixNsNode, domTagsN, fixNs_tags_list cs]
  | .text s => rfl
  | .cdata s => rfl

theorem fixNs_tags_list : ∀ l, domTagsL (fixNsList l) = domTagsL l
  | [] => rfl
  | c :: cs => by
    simp only [fixNsList, domTagsL, fixNs_tags_node c, fixNs_tags_list cs]

end

/-! ## Claim C9 -/

/-- C9: the code does not do what the claim (and its own comments at
lines 59 and 75) says.  A feed root written with a `custom` namespace
declaration reaches line 76 with `attrib = [("version", "2.0")]`: the
namespace-aware parse of lines 73-74 consumes every `xmlns:*`
declaration, so the extraction loop of lines 76-79 registers nothing
and the registration table holds only the five hard-coded bindings.  A
descendant written with the `custom` prefix is stored under its
universal name, whose URI the table does not contain, so the line-168
serializer emits the generated prefix `ns0` instead of `custom`; only
URIs among the five hard-coded bindings keep their prefix strings. -/
theorem c9_prefix_renamed :
    registeredNamespaces [("version", "2.0")] = [] ∧
    qualTagUri "\x7bhttp://example.com/ns\x7dtag" = some "http://example.com/ns" ∧
    tostringPfx (NAMESPACES ++ registeredNamespaces [("version", "2.0")])
      "http://example.com/ns" = "ns0" ∧
    "ns0" ≠ "custom" ∧
    tostringPfx (NAMESPACES ++ registeredNamespaces [("version", "2.0")])
      "http://www.itunes.com/dtds/podcast-1.0.dtd" = "itunes" :=
  ⟨rfl, rfl, rfl, by decide, rfl⟩

end FeedGen
